import Mathlib

/- Verification of the weaver babysitter (internal/babysitter/babysitter.go):
   a shallow embedding of the routing algorithm, the per-group supervisor state
   machine, the listener proxy registry, and the lock acquisition discipline,
   together with proofs of the specified properties. -/

namespace Weaver

/-- Go strings are byte sequences; Go compares them bytewise, which is the
lexicographic order on the list of byte values. -/
abbrev GoString := List Nat

/-- Size of the uint64 key space. -/
def U64 : Nat := 2 ^ 64

/-- The constant maxSliceKey = math.MaxUint64 used by routingAlgo. -/
def maxSliceKey : Nat := 2 ^ 64 - 1

/-- The default number of times a component is replicated (babysitter.go:50). -/
def DefaultReplication : Nat := 2

/-- Fuel-based floor of the binary logarithm (kernel-reducible, unlike
Nat.log2 which is defined by well-founded recursion). -/
def lg2F : Nat → Nat → Nat
  | 0, _ => 0
  | fuel + 1, n => if n ≤ 1 then 0 else lg2F fuel (n / 2) + 1

/-- Floor of the binary logarithm, valid for arguments below 2 ^ 128. -/
def lg2 (n : Nat) : Nat := lg2F 128 n

/-- Exact value of the Go conversion float64(x) on a natural number x: IEEE-754
binary64 rounds to the nearest value with a 53-bit significand, ties to even.
Arguments below 2^53 are represented exactly; otherwise the argument is rounded
at the unit 2^e where e = lg2 x - 52, with the tie going to the even quotient. -/
def floatRound (x : Nat) : Nat :=
  if x < 2 ^ 53 then x
  else if 2 ^ (lg2 x - 52 - 1) < x % 2 ^ (lg2 x - 52) ∨
      (x % 2 ^ (lg2 x - 52) = 2 ^ (lg2 x - 52 - 1) ∧ x / 2 ^ (lg2 x - 52) % 2 = 1) then
    (x / 2 ^ (lg2 x - 52) + 1) * 2 ^ (lg2 x - 52)
  else x / 2 ^ (lg2 x - 52) * 2 ^ (lg2 x - 52)

/-- Wrapping uint64 subtraction a - b, for a, b < 2^64. -/
def sub64 (a b : Nat) : Nat := (a + (U64 - b)) % U64

/-- The expression curr[0] + uint64(math.Floor(0.5*float64(curr[1]-curr[0])))
from routingAlgo (babysitter.go:516).  Multiplying a binary64 value by 0.5 is
exact, math.Floor of the exact half of the integer floatRound (hi - lo) is its
floor, and the uint64 conversion of that in-range integer is exact; the uint64
addition and subtraction wrap around 2^64. -/
def midPoint (lo hi : Nat) : Nat := (lo + floatRound (sub64 hi lo) / 2) % U64

/-- Splitting the queue interval [lo, hi] yields [lo, mid] and [mid, hi]
(babysitter.go:517-519). -/
def intervalChildren (iv : Nat × Nat) : List (Nat × Nat) :=
  [(iv.1, midPoint iv.1 iv.2), (midPoint iv.1 iv.2, iv.2)]

/-- One iteration of the split loop body (babysitter.go:515-519): pop the head
interval and append its two halves to the queue. -/
def splitStep (q : List (Nat × Nat)) : List (Nat × Nat) :=
  match q with
  | [] => []
  | c :: rest => rest ++ intervalChildren c

/-- Run exactly n iterations of the split loop body. -/
def splitLoopN : Nat → List (Nat × Nat) → List (Nat × Nat)
  | 0, q => q
  | n + 1, q => splitLoopN n (splitStep q)

/-- The do-while split loop of routingAlgo (babysitter.go:514-520): run the
body, then stop as soon as len(splits) == numSlices.  The Go loop needs
numSlices - 1 iterations; the fuel argument (routingAlgo passes numSlices)
only bounds the recursion and is never exhausted in reachable calls. -/
def splitLoopGo (numSlices : Nat) : Nat → List (Nat × Nat) → List (Nat × Nat)
  | 0, q => q
  | fuel + 1, q =>
    let q2 := splitStep q
    if q2.length = numSlices then q2 else splitLoopGo numSlices fuel q2

/-- nextPowerOfTwo (babysitter.go:557-564) returns the next power of 2 greater
or equal to x.  The Go source computes the second branch in floating point as
int(math.Pow(2, math.Ceil(math.Log2(float64(x))))); on that branch x is not a
power of two, so the real ceiling of log2 x is floor(log2 x) + 1, and for the
argument sizes considered in this development (x ≤ 2^62, far beyond any
realizable replica count) the binary64 computation returns exactly that. -/
def nextPowerOfTwo (x : Nat) : Nat :=
  if x &&& (x - 1) = 0 then x else 2 ^ (lg2 x + 1)

/-- A key-space slice (protos.Assignment_Slice): a start key and the replicas
owning the slice. -/
structure AssignmentSlice where
  start : Nat
  replicas : List GoString
deriving DecidableEq

/-- A per-component routing assignment (protos.Assignment).  The version is a
uint64 in the proto, kept below 2^64 by wrap-around. -/
structure Assignment where
  app : GoString
  deploymentId : GoString
  component : GoString
  version : Nat
  slices : List AssignmentSlice
deriving DecidableEq

/-- Ascending byte-lexicographic string sort (sort.Strings, babysitter.go:490).
Modelled with insertion sort: the result of any comparison sort is determined
by the total order up to the placement of equal strings, and equal strings are
indistinguishable values. -/
def sortStrings (l : List GoString) : List GoString :=
  List.insertionSort (· ≤ ·) l

/-- Sort of the computed splits by start key (sort.Slice with the comparator
splits[i][0] <= splits[j][0], babysitter.go:525-527). -/
def sortSplits (l : List (Nat × Nat)) : List (Nat × Nat) :=
  List.insertionSort (fun a b => a.1 ≤ b.1) l

/-- Round-robin assignment of the sorted splits to the sorted candidates
(babysitter.go:530-538): slice i takes start s[0] and the single replica
candidates[rId], with rId = (rId+1) % len(candidates) after each slice. -/
def roundRobin (cs : List GoString) : Nat → List (Nat × Nat) → List AssignmentSlice
  | _, [] => []
  | rId, s :: t => ⟨s.1, [cs.getD rId []]⟩ :: roundRobin cs ((rId + 1) % cs.length) t

/-- routingAlgo (babysitter.go:482-541): clone the current assignment, bump its
version, sort the candidates, and distribute the key space: no candidates means
no slices, a single candidate takes one slice over the whole space, otherwise
the space is bisected into nextPowerOfTwo(len) slices assigned round robin.
The in-place effect of sort.Strings on the caller's slice is modelled at the
call site that hands over a stored slice (registerReplica). -/
def routingAlgo (curr : Assignment) (candidates : List GoString) : Assignment :=
  let cs := sortStrings candidates
  if cs.length = 0 then
    { curr with version := (curr.version + 1) % U64, slices := [] }
  else if cs.length = 1 then
    { curr with version := (curr.version + 1) % U64, slices := [⟨0, cs⟩] }
  else
    let numSlices := nextPowerOfTwo cs.length
    let splits := splitLoopGo numSlices numSlices [(0, maxSliceKey)]
    { curr with version := (curr.version + 1) % U64,
                slices := roundRobin cs 0 (sortSplits splits) }

/-- State of one co-location group (struct group, babysitter.go:86-97, plus the
values of its two versioned cells): the started component set (the keys of the
components map), the routing replicas and assignments (protos.RoutingInfo), the
envelope handles (abstracted to tokens) and the registered pids. -/
structure GroupState where
  components : List GoString
  replicas : List GoString
  assignments : List Assignment
  envelopes : List Unit
  pids : List Int
deriving DecidableEq

/-- A freshly created group (babysitter.go:156-160). -/
def initGroup : GroupState :=
  { components := [], replicas := [], assignments := [], envelopes := [], pids := [] }

/-- The replica spawn loop of startColocationGroup (babysitter.go:188-212): for
r in [0, n), construct an envelope (success decided by the newEnvOk oracle,
abstracting envelope.NewEnvelope) and append it; on a construction failure
return the error immediately, keeping the envelopes appended so far. -/
def spawnLoop (newEnvOk : Nat → Bool) : Nat → Nat → List Unit → List Unit × Bool
  | _, 0, envs => (envs, true)
  | r, n + 1, envs =>
    if newEnvOk r then spawnLoop newEnvOk (r + 1) n (envs ++ [()])
    else (envs, false)

/-- startColocationGroup (babysitter.go:180-214): if the group already has
DefaultReplication envelopes it is already started; otherwise run the spawn
loop.  Returns the new state and true iff the Go function returns nil. -/
def startColocationGroup (newEnvOk : Nat → Bool) (g : GroupState) : GroupState × Bool :=
  if g.envelopes.length = DefaultReplication then (g, true)
  else
    let res := spawnLoop newEnvOk 0 DefaultReplication g.envelopes
    ({ g with envelopes := res.1 }, res.2)

/-- StartComponent (babysitter.go:217-252) acting on the addressed group:
record the component (immediate nil return when already present), append a
freshly computed assignment when the component is routed, then start the
colocation group.  The routed branch hands g.routing.Val.Replicas itself to
routingAlgo, whose sort.Strings sorts that stored slice in place, so the
stored replica list ends up sorted as a side effect. -/
def startComponent (newEnvOk : Nat → Bool) (app dep : GoString) (g : GroupState)
    (comp : GoString) (isRouted : Bool) : GroupState × Bool :=
  if comp ∈ g.components then (g, true)
  else
    let g1 := { g with components := g.components ++ [comp] }
    let g2 :=
      if isRouted then
        { g1 with replicas := sortStrings g1.replicas,
                  assignments :=
                    g1.assignments ++ [routingAlgo ⟨app, dep, comp, 0, []⟩ g1.replicas] }
      else g1
    startColocationGroup newEnvOk g2

/-- RegisterReplica (babysitter.go:255-277) acting on the addressed group: a
duplicate address is a no-op; otherwise append the address, recompute every
assignment with routingAlgo, and append the pid.  routingAlgo sorts the
candidate slice it is handed in place (sort.Strings on the function argument),
and it is handed g.routing.Val.Replicas itself, so whenever at least one
assignment exists the stored replica list ends up sorted. -/
def registerReplica (g : GroupState) (addr : GoString) (pid : Int) : GroupState :=
  if addr ∈ g.replicas then g
  else
    let reps := g.replicas ++ [addr]
    { g with
        replicas := if g.assignments.length = 0 then reps else sortStrings reps,
        assignments := g.assignments.map (fun a => routingAlgo a reps),
        pids := g.pids ++ [pid] }

/-- RoutingInfo as returned by GetRoutingInfo (babysitter.go:349-357): a clone
of the routing cell value with the version stamped in. -/
structure RoutingInfo where
  replicas : List GoString
  assignments : List Assignment
  version : Nat
deriving DecidableEq

/-- GetRoutingInfo clones the routing cell value (the read version is decided
by the versioned cell, passed here as an argument). -/
def getRoutingInfo (g : GroupState) (version : Nat) : RoutingInfo :=
  { replicas := g.replicas, assignments := g.assignments, version := version }

/-- A group-directed supervisor callback: StartComponent (with the success
oracle for its envelope constructions) or RegisterReplica. -/
inductive GroupOp where
  | startC (comp : GoString) (isRouted : Bool) (newEnvOk : Nat → Bool)
  | register (addr : GoString) (pid : Int)

/-- Effect of one callback on the group state. -/
def stepOp (app dep : GoString) (g : GroupState) : GroupOp → GroupState
  | .startC comp isRouted newEnvOk => (startComponent newEnvOk app dep g comp isRouted).1
  | .register addr pid => registerReplica g addr pid

/-- Effect of a callback trace on the group state. -/
def runOps (app dep : GoString) (ops : List GroupOp) (g : GroupState) : GroupState :=
  ops.foldl (stepOp app dep) g

/-- Whether the first StartComponent call for comp in the trace has IsRouted
set (false when the trace never starts comp). -/
def firstStartRouted (comp : GoString) : List GroupOp → Bool
  | [] => false
  | .startC c r _ :: t => if c = comp then r else firstStartRouted comp t
  | .register _ _ :: t => firstStartRouted comp t

/-- Number of assignments of a group whose component field equals comp. -/
def assignCount (g : GroupState) (comp : GoString) : Nat :=
  g.assignments.countP (fun a => decide (a.component = comp))

/-- Outcome of the net.Listen bind in ExportListener, as reported by the OS. -/
inductive BindOutcome where
  | ok (addr : GoString)
  | addrInUse (msg : GoString)
  | failure (msg : GoString)
deriving DecidableEq

/-- A proxy record (proxyInfo, babysitter.go:100-104): listener name, the
backend set of the proxy, and the dialable proxy address. -/
structure ProxyInfo where
  listener : GoString
  backends : List GoString
  addr : GoString
deriving DecidableEq

/-- Result of ExportListener: either a reply (possibly carrying a user-visible
error string) or a supervisor fault (a non-nil Go error). -/
inductive ExportResult where
  | reply (proxyAddress errMsg : GoString)
  | fault (msg : GoString)
deriving DecidableEq

/-- ExportListener (babysitter.go:314-347): reuse an existing proxy for the
listener name (adding the backend); otherwise bind the local address: an
address-in-use failure is returned inside a successful reply, any other bind
failure is a supervisor fault, and a successful bind registers a new proxy
record and replies with its address. -/
def exportListener (proxies : List (GoString × ProxyInfo)) (name backendAddr : GoString)
    (bind : BindOutcome) : List (GoString × ProxyInfo) × ExportResult :=
  match proxies.lookup name with
  | some p =>
    (proxies.map (fun kv =>
       if kv.1 = name then (kv.1, { kv.2 with backends := kv.2.backends ++ [backendAddr] })
       else kv),
     .reply p.addr [])
  | none =>
    match bind with
    | .addrInUse msg => (proxies, .reply [] msg)
    | .failure msg => (proxies, .fault msg)
    | .ok addr =>
      (proxies ++ [(name, { listener := name, backends := [backendAddr], addr := addr })],
       .reply addr [])

/-- The locks of the supervisor: the supervisor mutex (b.mu), a group mutex
(g.mu), and the two versioned-cell locks of a group. -/
inductive LockId where
  | supMu
  | groupMu
  | cellComponents
  | cellRouting
deriving DecidableEq

/-- Rank in the documented order: supervisor mutex, then group mutex, then
versioned-cell lock. -/
def lockRank : LockId → Nat
  | .supMu => 0
  | .groupMu => 1
  | .cellComponents => 2
  | .cellRouting => 2

/-- A lock acquisition or release event. -/
inductive LockEv where
  | acq (l : LockId)
  | rel (l : LockId)
deriving DecidableEq

/-- A trace respects the documented order when every acquisition happens while
only strictly lower-ranked locks are held. -/
def respectsOrderFrom (held : List LockId) : List LockEv → Bool
  | [] => true
  | .acq l :: t =>
    if held.all (fun h => lockRank h < lockRank l) then respectsOrderFrom (l :: held) t
    else false
  | .rel l :: t => respectsOrderFrom (held.erase l) t

/-- Whether a lock event trace respects the documented lock order. -/
def respectsOrder (t : List LockEv) : Bool := respectsOrderFrom [] t

/-- Lock events of b.group (babysitter.go:151-164). -/
def groupLookupLocks : List LockEv := [.acq .supMu, .rel .supMu]

/-- Lock events of startColocationGroup (babysitter.go:180-214). -/
def startColocationGroupLocks : List LockEv := [.acq .groupMu, .rel .groupMu]

/-- Lock events of StartComponent for a routed component (babysitter.go:217-252):
b.group, the components cell, the routing cell, then startColocationGroup; each
lock is released before the next is taken. -/
def startComponentLocks : List LockEv :=
  groupLookupLocks ++ [.acq .cellComponents, .rel .cellComponents,
    .acq .cellRouting, .rel .cellRouting] ++ startColocationGroupLocks

/-- Lock events of RegisterReplica (babysitter.go:255-277): b.group, then the
routing cell lock is taken (babysitter.go:259) and held, via defer, while the
group mutex is acquired to append the pid (babysitter.go:272); the deferred
unlocks run in LIFO order. -/
def registerReplicaLocks : List LockEv :=
  groupLookupLocks ++ [.acq .cellRouting, .acq .groupMu, .rel .groupMu, .rel .cellRouting]

/-- Lock events of GetComponentsToStart (babysitter.go:280-288). -/
def getComponentsToStartLocks : List LockEv :=
  groupLookupLocks ++ [.acq .cellComponents, .rel .cellComponents]

/-- Lock events of GetRoutingInfo (babysitter.go:349-357). -/
def getRoutingInfoLocks : List LockEv :=
  groupLookupLocks ++ [.acq .cellRouting, .rel .cellRouting]

/-- Lock events of ExportListener (babysitter.go:314-347). -/
def exportListenerLocks : List LockEv := [.acq .supMu, .rel .supMu]

/-- Lock events of readMetrics visiting one group (babysitter.go:359-376). -/
def readMetricsLocks : List LockEv :=
  [.acq .supMu, .rel .supMu, .acq .groupMu, .rel .groupMu]

/-- Lock events of Profile visiting one group (babysitter.go:379-396). -/
def profileLocks : List LockEv :=
  [.acq .supMu, .rel .supMu, .acq .groupMu, .rel .groupMu]

/-- Lock events of Status visiting one group then the proxies
(babysitter.go:399-464): allGroups, the components cell, the group mutex, then
allProxies. -/
def statusLocks : List LockEv :=
  [.acq .supMu, .rel .supMu, .acq .cellComponents, .rel .cellComponents,
   .acq .groupMu, .rel .groupMu, .acq .supMu, .rel .supMu]

/-- Start keys of the slices produced by routingAlgo. -/
def routingStarts (curr : Assignment) (candidates : List GoString) : List Nat :=
  ((routingAlgo curr candidates).slices).map AssignmentSlice.start

/-- Reading of an assignment per the data model: slice i covers the keys from
its start (inclusive) up to the next start (exclusive), the last slice up to
2^64 (both expressed by the default value U64 of getD past the end). -/
def coversKey (starts : List Nat) (i key : Nat) : Prop :=
  i < starts.length ∧ starts.getD i U64 ≤ key ∧ key < starts.getD (i + 1) U64

/-- The queue intervals form a contiguous chain of boundaries from lo to hi. -/
def ChainB : Nat → Nat → List (Nat × Nat) → Prop
  | lo, hi, [] => lo = hi
  | lo, hi, iv :: t => iv.1 = lo ∧ ChainB iv.2 hi t

/-- Every interval in the list has length 2^m or 2^m - 1. -/
def LensOK (m : Nat) (l : List (Nat × Nat)) : Prop :=
  ∀ iv ∈ l, iv.2 - iv.1 = 2 ^ m ∨ iv.2 - iv.1 = 2 ^ m - 1

/-- One full bisection level: split every interval of the list. -/
def ivsStep (l : List (Nat × Nat)) : List (Nat × Nat) := l.flatMap intervalChildren

/-- The complete bisection tree level k over the key space [0, 2^64 - 1]. -/
def levels : Nat → List (Nat × Nat)
  | 0 => [(0, maxSliceKey)]
  | k + 1 => ivsStep (levels k)

/-! Arithmetic facts about the binary logarithm and the float64 rounding. -/

theorem lg2F_eq (fuel k x : Nat) (hk : k < fuel) (h1 : 2 ^ k ≤ x) (h2 : x < 2 ^ (k + 1)) :
    lg2F fuel x = k := by
  induction fuel generalizing k x with
  | zero => omega
  | succ fuel ih =>
    cases k with
    | zero =>
      have h1' : 1 ≤ x := by simpa using h1
      have h2' : x < 2 := by simpa using h2
      have hx : x = 1 := by omega
      simp [lg2F, hx]
    | succ k =>
      have hpow : (1 : Nat) < 2 ^ (k + 1) := Nat.one_lt_two_pow (by omega)
      have hx2 : ¬ x ≤ 1 := by omega
      rw [lg2F, if_neg hx2]
      have hdiv1 : 2 ^ k ≤ x / 2 := by
        rw [Nat.le_div_iff_mul_le (by norm_num)]
        calc 2 ^ k * 2 = 2 ^ (k + 1) := (pow_succ 2 k).symm
          _ ≤ x := h1
      have hdiv2 : x / 2 < 2 ^ (k + 1) := by
        rw [Nat.div_lt_iff_lt_mul (by norm_num)]
        calc x < 2 ^ (k + 2) := h2
          _ = 2 ^ (k + 1) * 2 := pow_succ 2 (k + 1)
      rw [ih k (x / 2) (by omega) hdiv1 hdiv2]

theorem lg2_eq (k x : Nat) (hk : k < 128) (h1 : 2 ^ k ≤ x) (h2 : x < 2 ^ (k + 1)) :
    lg2 x = k :=
  lg2F_eq 128 k x hk h1 h2

theorem lg2_pow (m : Nat) (hm : m < 128) : lg2 (2 ^ m) = m :=
  lg2_eq m (2 ^ m) hm le_rfl (Nat.pow_lt_pow_right (by norm_num) (by omega))

theorem lg2_pred_pow (m : Nat) (h1 : 1 ≤ m) (hm : m ≤ 128) : lg2 (2 ^ m - 1) = m - 1 := by
  have hsplit : 2 ^ m = 2 * 2 ^ (m - 1) := by
    rw [← pow_succ']
    congr 1
    omega
  have hge : (1 : Nat) ≤ 2 ^ (m - 1) := Nat.one_le_two_pow
  have h2 : 2 ^ (m - 1) ≤ 2 ^ m - 1 := by omega
  have h3 : 2 ^ m - 1 < 2 ^ (m - 1 + 1) := by
    have : m - 1 + 1 = m := by omega
    rw [this]
    have : (1 : Nat) ≤ 2 ^ m := Nat.one_le_two_pow
    omega
  exact lg2_eq (m - 1) (2 ^ m - 1) (by omega) h2 h3

theorem floatRound_small (x : Nat) (h : x < 2 ^ 53) : floatRound x = x := by
  rw [floatRound, if_pos h]

theorem floatRound_pow (m : Nat) (hm : m < 128) : floatRound (2 ^ m) = 2 ^ m := by
  by_cases hs : 2 ^ m < 2 ^ 53
  · exact floatRound_small _ hs
  · have h53 : 53 ≤ m := by
      by_contra hlt
      exact hs (Nat.pow_lt_pow_right (by norm_num) (by omega))
    have hsplit : 2 ^ m = 2 ^ (m - 52) * 2 ^ 52 := by
      rw [← pow_add]
      congr 1
      omega
    have hq : 2 ^ m / 2 ^ (m - 52) = 2 ^ 52 := by
      rw [hsplit, Nat.mul_div_cancel_left _ (by positivity)]
    have hr : 2 ^ m % 2 ^ (m - 52) = 0 := by
      rw [hsplit, Nat.mul_mod_right]
    have hhalf : (1 : Nat) ≤ 2 ^ (m - 52 - 1) := Nat.one_le_two_pow
    rw [floatRound, if_neg hs, lg2_pow m hm, hq, hr, if_neg (by omega)]
    rw [← pow_add]
    congr 1
    omega

theorem floatRound_pred_pow_small (m : Nat) (hm : m ≤ 53) :
    floatRound (2 ^ m - 1) = 2 ^ m - 1 := by
  apply floatRound_small
  have : (2 : Nat) ^ m ≤ 2 ^ 53 := Nat.pow_le_pow_right (by norm_num) hm
  have : (1 : Nat) ≤ 2 ^ m := Nat.one_le_two_pow
  omega

theorem floatRound_pred_pow_big (m : Nat) (h54 : 54 ≤ m) (hm : m ≤ 128) :
    floatRound (2 ^ m - 1) = 2 ^ m := by
  have hsplit : 2 ^ m = 2 ^ 53 * 2 ^ (m - 53) := by
    rw [← pow_add]
    congr 1
    omega
  have hD1 : (1 : Nat) ≤ 2 ^ (m - 53) := Nat.one_le_two_pow
  have hDh : 2 ^ (m - 53) = 2 * 2 ^ (m - 53 - 1) := by
    rw [← pow_succ']
    congr 1
    omega
  have hs : ¬ (2 ^ m - 1 < 2 ^ 53) := by
    have : (2 : Nat) ^ 53 * 1 ≤ 2 ^ 53 * 2 ^ (m - 53) := by
      apply Nat.mul_le_mul_left
      exact hD1
    omega
  have hlg : lg2 (2 ^ m - 1) = m - 1 := lg2_pred_pow m (by omega) hm
  have he : m - 1 - 52 = m - 53 := by omega
  have hdecomp : 2 ^ m - 1 = 2 ^ (m - 53) * (2 ^ 53 - 1) + (2 ^ (m - 53) - 1) := by
    have h2 : (1 : Nat) ≤ 2 ^ 53 := Nat.one_le_two_pow
    have : 2 ^ (m - 53) * (2 ^ 53 - 1) = 2 ^ 53 * 2 ^ (m - 53) - 2 ^ (m - 53) := by
      rw [Nat.mul_sub_one]
      omega
    omega
  have hq : (2 ^ m - 1) / 2 ^ (m - 53) = 2 ^ 53 - 1 := by
    rw [hdecomp, Nat.mul_add_div (by positivity), Nat.div_eq_of_lt (by omega)]
    omega
  have hr : (2 ^ m - 1) % 2 ^ (m - 53) = 2 ^ (m - 53) - 1 := by
    rw [hdecomp, Nat.mul_add_mod, Nat.mod_eq_of_lt (by omega)]
  have hqodd : (2 ^ 53 - 1) % 2 = 1 := by
    have : (2 : Nat) ^ 53 = 2 * 2 ^ 52 := by rw [← pow_succ']
    omega
  rw [floatRound, if_neg hs, hlg, he, hq, hr]
  have hcond : 2 ^ (m - 53 - 1) < 2 ^ (m - 53) - 1 ∨
      (2 ^ (m - 53) - 1 = 2 ^ (m - 53 - 1) ∧ (2 ^ 53 - 1) % 2 = 1) := by
    by_cases he2 : m = 54
    · right
      subst he2
      norm_num
    · left
      have h2 : (2 : Nat) ≤ 2 ^ (m - 53 - 1) := by
        calc (2 : Nat) = 2 ^ 1 := rfl
          _ ≤ 2 ^ (m - 53 - 1) := Nat.pow_le_pow_right (by norm_num) (by omega)
      omega
  rw [if_pos hcond]
  have : 2 ^ 53 - 1 + 1 = 2 ^ 53 := by
    have : (1 : Nat) ≤ 2 ^ 53 := Nat.one_le_two_pow
    omega
  rw [this, ← hsplit]

/-! Midpoint computations on the interval forms arising in the bisection. -/

theorem U64_pos : 0 < U64 := by
  unfold U64
  positivity

theorem maxSliceKey_lt_U64 : maxSliceKey < U64 := by
  have h : (1 : Nat) ≤ 2 ^ 64 := Nat.one_le_two_pow
  unfold maxSliceKey U64
  omega

theorem sub64_eq (a b : Nat) (hle : b ≤ a) (ha : a < U64) : sub64 a b = a - b := by
  have hU : (0 : Nat) < U64 := U64_pos
  have h1 : a + (U64 - b) = U64 + (a - b) := by omega
  rw [sub64, h1, Nat.add_mod_left, Nat.mod_eq_of_lt (by omega)]

theorem midPoint_pow (lo hi m : Nat) (h1 : 1 ≤ m) (hd : hi - lo = 2 ^ m)
    (hle : lo ≤ hi) (hhi : hi < U64) : midPoint lo hi = lo + 2 ^ (m - 1) := by
  have hm : m < 128 := by
    have hUlt : 2 ^ m < U64 := by omega
    have : (2 : Nat) ^ 64 = U64 := rfl
    by_contra h
    push_neg at h
    have : (2 : Nat) ^ 64 ≤ 2 ^ m := Nat.pow_le_pow_right (by norm_num) (by omega)
    omega
  have hps : 2 ^ m = 2 * 2 ^ (m - 1) := by
    rw [← pow_succ']
    congr 1
    omega
  rw [midPoint, sub64_eq hi lo hle hhi, hd, floatRound_pow m hm]
  have hdiv : 2 ^ m / 2 = 2 ^ (m - 1) := by omega
  rw [hdiv, Nat.mod_eq_of_lt (by omega)]

theorem midPoint_pred (lo hi m : Nat) (h2 : 2 ≤ m) (hd : hi - lo = 2 ^ m - 1)
    (hle : lo ≤ hi) (hhi : hi < U64) :
    midPoint lo hi = if 54 ≤ m then lo + 2 ^ (m - 1) else lo + (2 ^ (m - 1) - 1) := by
  have hps : 2 ^ m = 2 * 2 ^ (m - 1) := by
    rw [← pow_succ']
    congr 1
    omega
  have hp1 : (1 : Nat) ≤ 2 ^ (m - 1) := Nat.one_le_two_pow
  have hm : m ≤ 128 := by
    have hUlt : 2 ^ m - 1 < U64 := by omega
    have hU : (2 : Nat) ^ 64 = U64 := rfl
    have hU0 : 0 < U64 := U64_pos
    by_contra h
    push_neg at h
    have h65 : (2 : Nat) ^ 65 ≤ 2 ^ m := Nat.pow_le_pow_right (by norm_num) (by omega)
    have hU2 : (2 : Nat) ^ 65 = U64 * 2 := by
      rw [pow_succ, hU]
    omega
  rw [midPoint, sub64_eq hi lo hle hhi, hd]
  by_cases h54 : 54 ≤ m
  · rw [floatRound_pred_pow_big m h54 hm, if_pos h54]
    have hdiv : 2 ^ m / 2 = 2 ^ (m - 1) := by omega
    rw [hdiv, Nat.mod_eq_of_lt (by omega)]
  · rw [floatRound_pred_pow_small m (by omega), if_neg h54]
    have hdiv : (2 ^ m - 1) / 2 = 2 ^ (m - 1) - 1 := by omega
    rw [hdiv, Nat.mod_eq_of_lt (by omega)]

theorem intervalChildren_inv (lo hi m : Nat) (h2 : 2 ≤ m)
    (hd : hi - lo = 2 ^ m ∨ hi - lo = 2 ^ m - 1) (hle : lo ≤ hi) (hhi : hi ≤ maxSliceKey) :
    lo < midPoint lo hi ∧ midPoint lo hi < hi ∧
      (midPoint lo hi - lo = 2 ^ (m - 1) ∨ midPoint lo hi - lo = 2 ^ (m - 1) - 1) ∧
      (hi - midPoint lo hi = 2 ^ (m - 1) ∨ hi - midPoint lo hi = 2 ^ (m - 1) - 1) := by
  have hhiU : hi < U64 := lt_of_le_of_lt hhi maxSliceKey_lt_U64
  have hps : 2 ^ m = 2 * 2 ^ (m - 1) := by
    rw [← pow_succ']
    congr 1
    omega
  have hp2 : (2 : Nat) ≤ 2 ^ (m - 1) := by
    calc (2 : Nat) = 2 ^ 1 := rfl
      _ ≤ 2 ^ (m - 1) := Nat.pow_le_pow_right (by norm_num) (by omega)
  rcases hd with hd | hd
  · rw [midPoint_pow lo hi m (by omega) hd hle hhiU]
    omega
  · rw [midPoint_pred lo hi m h2 hd hle hhiU]
    by_cases h54 : 54 ≤ m
    · rw [if_pos h54]
      omega
    · rw [if_neg h54]
      omega

/-! The bisection levels form a contiguous chain of intervals with lengths
2^m or 2^m - 1, and the split queue loop computes exactly those levels. -/

theorem LensOK_lt (m : Nat) (h2 : 2 ≤ m) (l : List (Nat × Nat)) (hl : LensOK m l) :
    ∀ iv ∈ l, iv.1 < iv.2 := by
  intro iv hm
  have hp2 : (2 : Nat) ≤ 2 ^ m := by
    calc (2 : Nat) = 2 ^ 1 := rfl
      _ ≤ 2 ^ m := Nat.pow_le_pow_right (by norm_num) (by omega)
  have := hl iv hm
  omega

theorem ChainB_le (l : List (Nat × Nat)) : ∀ lo hi, ChainB lo hi l →
    (∀ iv ∈ l, iv.1 ≤ iv.2) → lo ≤ hi := by
  induction l with
  | nil =>
    intro lo hi hch _
    exact le_of_eq hch
  | cons iv t ih =>
    intro lo hi hch hle
    obtain ⟨ha, hcht⟩ := hch
    have h1 : iv.1 ≤ iv.2 := hle iv (by simp)
    have h2 : iv.2 ≤ hi := ih iv.2 hi hcht (fun x hx => hle x (by simp [hx]))
    omega

theorem ivsStep_inv (m : Nat) (h2 : 2 ≤ m) (l : List (Nat × Nat)) :
    ∀ lo hi, hi ≤ maxSliceKey → ChainB lo hi l → LensOK m l →
      ChainB lo hi (ivsStep l) ∧ LensOK (m - 1) (ivsStep l) := by
  induction l with
  | nil =>
    intro lo hi _ hch _
    refine ⟨hch, ?_⟩
    intro iv hm
    simp [ivsStep] at hm
  | cons iv t ih =>
    intro lo hi hhi hch hlen
    obtain ⟨ha, hcht⟩ := hch
    have hd := hlen iv (by simp)
    have hlt := LensOK_lt m h2 (iv :: t) hlen
    have hab : iv.1 < iv.2 := hlt iv (by simp)
    have hlent : LensOK m t := fun x hx => hlen x (by simp [hx])
    have hb_le : iv.2 ≤ hi :=
      ChainB_le t iv.2 hi hcht (fun x hx => le_of_lt (hlt x (by simp [hx])))
    have hchild := intervalChildren_inv iv.1 iv.2 m h2 hd (le_of_lt hab) (le_trans hb_le hhi)
    obtain ⟨hm1, hm2, hl1, hl2⟩ := hchild
    have iht := ih iv.2 hi hhi hcht hlent
    have hstep : ivsStep (iv :: t) = intervalChildren iv ++ ivsStep t := by
      simp [ivsStep]
    rw [hstep]
    constructor
    · show ChainB lo hi ((iv.1, midPoint iv.1 iv.2) :: (midPoint iv.1 iv.2, iv.2) :: ivsStep t)
      exact ⟨ha, rfl, iht.1⟩
    · intro x hx
      rw [List.mem_append] at hx
      rcases hx with hx | hx
      · simp [intervalChildren] at hx
        rcases hx with hx | hx
        · subst hx
          exact hl1
        · subst hx
          exact hl2
      · exact iht.2 x hx

theorem levels_inv (k : Nat) (hk : k ≤ 63) :
    ChainB 0 maxSliceKey (levels k) ∧ LensOK (64 - k) (levels k) := by
  induction k with
  | zero =>
    constructor
    · show ChainB 0 maxSliceKey [(0, maxSliceKey)]
      exact ⟨rfl, rfl⟩
    · intro iv hm
      simp [levels] at hm
      subst hm
      right
      rfl
  | succ k ih =>
    have hk62 : k ≤ 62 := by omega
    have ih2 := ih (by omega)
    have hstep := ivsStep_inv (64 - k) (by omega) (levels k) 0 maxSliceKey le_rfl ih2.1 ih2.2
    have hmm : 64 - k - 1 = 64 - (k + 1) := by omega
    rw [hmm] at hstep
    exact hstep

theorem ivsStep_length (l : List (Nat × Nat)) : (ivsStep l).length = 2 * l.length := by
  induction l with
  | nil => rfl
  | cons iv t ih =>
    have : ivsStep (iv :: t) = intervalChildren iv ++ ivsStep t := by simp [ivsStep]
    rw [this, List.length_append, ih]
    simp [intervalChildren]
    omega

theorem levels_length (k : Nat) : (levels k).length = 2 ^ k := by
  induction k with
  | zero => rfl
  | succ k ih =>
    show (ivsStep (levels k)).length = 2 ^ (k + 1)
    rw [ivsStep_length, ih, pow_succ]
    omega

theorem splitStep_length (q : List (Nat × Nat)) (hq : q ≠ []) :
    (splitStep q).length = q.length + 1 := by
  cases q with
  | nil => exact absurd rfl hq
  | cons c rest =>
    simp [splitStep, intervalChildren]

theorem splitStep_ne_nil (q : List (Nat × Nat)) (hq : q ≠ []) : splitStep q ≠ [] := by
  cases q with
  | nil => exact absurd rfl hq
  | cons c rest =>
    simp [splitStep, intervalChildren]

theorem splitLoopN_append (l1 l2 : List (Nat × Nat)) :
    splitLoopN l1.length (l1 ++ l2) = l2 ++ ivsStep l1 := by
  induction l1 generalizing l2 with
  | nil =>
    simp [splitLoopN, ivsStep]
  | cons a t ih =>
    show splitLoopN (t.length + 1) (a :: (t ++ l2)) = l2 ++ ivsStep (a :: t)
    have h1 : splitLoopN (t.length + 1) (a :: (t ++ l2)) =
        splitLoopN t.length (splitStep (a :: (t ++ l2))) := rfl
    have h2 : splitStep (a :: (t ++ l2)) = t ++ (l2 ++ intervalChildren a) := by
      simp [splitStep]
    have h3 : ivsStep (a :: t) = intervalChildren a ++ ivsStep t := by
      simp [ivsStep]
    rw [h1, h2, ih (l2 ++ intervalChildren a), h3]
    simp

theorem splitLoopN_add (a b : Nat) (q : List (Nat × Nat)) :
    splitLoopN (a + b) q = splitLoopN b (splitLoopN a q) := by
  induction a generalizing q with
  | zero =>
    rw [Nat.zero_add]
    rfl
  | succ a ih =>
    have h1 : a + 1 + b = (a + b) + 1 := by omega
    rw [h1]
    show splitLoopN (a + b) (splitStep q) = splitLoopN b (splitLoopN (a + 1) q)
    rw [ih (splitStep q)]
    rfl

theorem splitLoopN_levels (k : Nat) :
    splitLoopN (2 ^ k - 1) [(0, maxSliceKey)] = levels k := by
  induction k with
  | zero => rfl
  | succ k ih =>
    have h1 : (1 : Nat) ≤ 2 ^ k := Nat.one_le_two_pow
    have h2 : 2 ^ (k + 1) - 1 = (2 ^ k - 1) + 2 ^ k := by
      rw [pow_succ]
      omega
    rw [h2, splitLoopN_add, ih]
    have h3 : (levels k).length = 2 ^ k := levels_length k
    calc splitLoopN (2 ^ k) (levels k)
        = splitLoopN (levels k).length (levels k ++ []) := by rw [h3, List.append_nil]
      _ = [] ++ ivsStep (levels k) := splitLoopN_append _ _
      _ = levels (k + 1) := by simp [levels]

theorem splitLoopGo_eq (N : Nat) : ∀ fuel (q : List (Nat × Nat)), q ≠ [] →
    q.length < N → N - q.length ≤ fuel →
    splitLoopGo N fuel q = splitLoopN (N - q.length) q := by
  intro fuel
  induction fuel with
  | zero =>
    intro q _ hlt hfuel
    omega
  | succ fuel ih =>
    intro q hq hlt hfuel
    have hlen : (splitStep q).length = q.length + 1 := splitStep_length q hq
    show (if (splitStep q).length = N then splitStep q
        else splitLoopGo N fuel (splitStep q)) = splitLoopN (N - q.length) q
    by_cases hN : (splitStep q).length = N
    · rw [if_pos hN]
      have h1 : N - q.length = 1 := by omega
      rw [h1]
      rfl
    · rw [if_neg hN]
      have h2 : (splitStep q).length < N := by omega
      have h3 : N - (splitStep q).length ≤ fuel := by omega
      rw [ih (splitStep q) (splitStep_ne_nil q hq) h2 h3]
      have h4 : N - q.length = (N - (splitStep q).length) + 1 := by omega
      rw [h4]
      rfl

theorem splitLoopGo_levels (k : Nat) (h1 : 1 ≤ k) :
    splitLoopGo (2 ^ k) (2 ^ k) [(0, maxSliceKey)] = levels k := by
  have h2 : (2 : Nat) ≤ 2 ^ k := by
    calc (2 : Nat) = 2 ^ 1 := rfl
      _ ≤ 2 ^ k := Nat.pow_le_pow_right (by norm_num) h1
  have hlen : ([((0 : Nat), maxSliceKey)]).length = 1 := rfl
  rw [splitLoopGo_eq (2 ^ k) (2 ^ k) [(0, maxSliceKey)] (by simp) (by omega) (by omega)]
  rw [hlen]
  exact splitLoopN_levels k

/-! Properties of nextPowerOfTwo. -/

theorem lg2_bounds (x : Nat) (h1 : 1 ≤ x) (h2 : x < 2 ^ 127) :
    2 ^ lg2 x ≤ x ∧ x < 2 ^ (lg2 x + 1) := by
  have hle : 2 ^ Nat.log2 x ≤ x := Nat.log2_self_le (by omega)
  have hlt : x < 2 ^ (Nat.log2 x + 1) := Nat.lt_log2_self
  have hk : Nat.log2 x < 127 := by
    by_contra h
    push_neg at h
    have : (2 : Nat) ^ 127 ≤ 2 ^ Nat.log2 x := Nat.pow_le_pow_right (by norm_num) h
    omega
  rw [lg2_eq (Nat.log2 x) x (by omega) hle hlt]
  exact ⟨hle, hlt⟩

theorem testBit_msb (x k : Nat) (h1 : 2 ^ k ≤ x) (h2 : x < 2 ^ (k + 1)) :
    x.testBit k = true := by
  rw [Nat.testBit_to_div_mod]
  have hps : 2 ^ (k + 1) = 2 ^ k * 2 := pow_succ 2 k
  have hdiv : x / 2 ^ k = 1 := by
    apply Nat.div_eq_of_lt_le (by omega) (by omega)
  simp [hdiv]

theorem pow_two_land_pred (k : Nat) : 2 ^ k &&& (2 ^ k - 1) = 0 := by
  apply Nat.eq_of_testBit_eq
  intro i
  rw [Nat.testBit_land, Nat.zero_testBit, Nat.testBit_two_pow_sub_one]
  by_cases h : k = i
  · subst h
    simp
  · rw [Nat.testBit_two_pow_of_ne h]
    simp

theorem land_pred_ne_zero (x k : Nat) (h1 : 2 ^ k < x) (h2 : x < 2 ^ (k + 1)) :
    x &&& (x - 1) ≠ 0 := by
  intro h0
  have hb1 : x.testBit k = true := testBit_msb x k (by omega) h2
  have hb2 : (x - 1).testBit k = true := testBit_msb (x - 1) k (by omega) (by omega)
  have hb : (x &&& (x - 1)).testBit k = true := by
    rw [Nat.testBit_land, hb1, hb2]
    rfl
  rw [h0, Nat.zero_testBit] at hb
  exact Bool.noConfusion hb

theorem nextPowerOfTwo_spec (x : Nat) (h1 : 2 ≤ x) (h2 : x ≤ 2 ^ 62) :
    ∃ k, 1 ≤ k ∧ k ≤ 62 ∧ nextPowerOfTwo x = 2 ^ k ∧ x ≤ 2 ^ k ∧
      ∀ j, x ≤ 2 ^ j → 2 ^ k ≤ 2 ^ j := by
  have hx127 : x < 2 ^ 127 := by
    have : (2 : Nat) ^ 62 < 2 ^ 127 := Nat.pow_lt_pow_right (by norm_num) (by norm_num)
    omega
  obtain ⟨hle, hlt⟩ := lg2_bounds x (by omega) hx127
  by_cases hp : x &&& (x - 1) = 0
  · have hxpow : x = 2 ^ lg2 x := by
      by_contra hne
      exact land_pred_ne_zero x (lg2 x) (by omega) hlt hp
    refine ⟨lg2 x, ?_, ?_, ?_, le_of_eq hxpow, ?_⟩
    · by_contra h
      push_neg at h
      have h0 : lg2 x = 0 := by omega
      rw [h0] at hxpow
      norm_num at hxpow
      omega
    · by_contra h
      push_neg at h
      have h63 : (2 : Nat) ^ 63 ≤ 2 ^ lg2 x := Nat.pow_le_pow_right (by norm_num) (by omega)
      have h62 : (2 : Nat) ^ 62 < 2 ^ 63 := Nat.pow_lt_pow_right (by norm_num) (by norm_num)
      omega
    · rw [nextPowerOfTwo, if_pos hp]
      exact hxpow
    · intro j hj
      rw [← hxpow]
      exact hj
  · have hgt : 2 ^ lg2 x < x := by
      rcases lt_or_eq_of_le hle with h | h
      · exact h
      · exfalso
        apply hp
        have hland := pow_two_land_pred (lg2 x)
        rw [h] at hland
        exact hland
    refine ⟨lg2 x + 1, by omega, ?_, ?_, le_of_lt hlt, ?_⟩
    · by_contra h
      push_neg at h
      have h62 : (2 : Nat) ^ 62 ≤ 2 ^ lg2 x := Nat.pow_le_pow_right (by norm_num) (by omega)
      omega
    · rw [nextPowerOfTwo, if_neg hp]
    · intro j hj
      by_contra h
      push_neg at h
      have hj2 : j ≤ lg2 x := by
        by_contra h3
        push_neg at h3
        exact absurd (Nat.pow_le_pow_right (by norm_num) h3) (not_le.mpr h)
      have : (2 : Nat) ^ j ≤ 2 ^ lg2 x := Nat.pow_le_pow_right (by norm_num) hj2
      omega

theorem nextPowerOfTwo_one : nextPowerOfTwo 1 = 1 := by
  decide

/-! From the chain invariant to sortedness of the splits and of the start keys. -/

theorem ChainB_bounds (l : List (Nat × Nat)) : ∀ lo hi, ChainB lo hi l →
    (∀ iv ∈ l, iv.1 < iv.2) → ∀ iv ∈ l, lo ≤ iv.1 ∧ iv.2 ≤ hi := by
  induction l with
  | nil =>
    intro lo hi _ _ iv hm
    simp at hm
  | cons a t ih =>
    intro lo hi hch hlt iv hm
    obtain ⟨ha, hcht⟩ := hch
    have ha2hi : a.2 ≤ hi :=
      ChainB_le t a.2 hi hcht (fun x hx => le_of_lt (hlt x (by simp [hx])))
    rw [List.mem_cons] at hm
    rcases hm with hm | hm
    · subst hm
      constructor
      · omega
      · exact ha2hi
    · have := ih a.2 hi hcht (fun x hx => hlt x (by simp [hx])) iv hm
      have haa : a.1 < a.2 := hlt a (by simp)
      omega

theorem ChainB_pairwise_fst (l : List (Nat × Nat)) : ∀ lo hi, ChainB lo hi l →
    (∀ iv ∈ l, iv.1 < iv.2) →
    List.Pairwise (fun a b : Nat × Nat => a.1 < b.1) l := by
  induction l with
  | nil =>
    intro lo hi _ _
    exact List.Pairwise.nil
  | cons a t ih =>
    intro lo hi hch hlt
    obtain ⟨ha, hcht⟩ := hch
    constructor
    · intro b hb
      have hbnd := ChainB_bounds t a.2 hi hcht (fun x hx => hlt x (by simp [hx])) b hb
      have haa : a.1 < a.2 := hlt a (by simp)
      omega
    · exact ih a.2 hi hcht (fun x hx => hlt x (by simp [hx]))

theorem sortSplits_of_sorted (l : List (Nat × Nat))
    (h : List.Pairwise (fun a b : Nat × Nat => a.1 < b.1) l) : sortSplits l = l := by
  apply List.Sorted.insertionSort_eq
  exact h.imp (fun hab => le_of_lt hab)

theorem roundRobin_starts (cs : List GoString) (sp : List (Nat × Nat)) : ∀ r,
    (roundRobin cs r sp).map AssignmentSlice.start = sp.map Prod.fst := by
  induction sp with
  | nil => intro r; rfl
  | cons s t ih =>
    intro r
    show AssignmentSlice.start ⟨s.1, [cs.getD r []]⟩ ::
        (roundRobin cs ((r + 1) % cs.length) t).map AssignmentSlice.start = s.1 :: t.map Prod.fst
    rw [ih]

theorem roundRobin_length (cs : List GoString) (sp : List (Nat × Nat)) (r : Nat) :
    (roundRobin cs r sp).length = sp.length := by
  have h := congrArg List.length (roundRobin_starts cs sp r)
  simpa using h

theorem roundRobin_replicas_getD (cs : List GoString) (sp : List (Nat × Nat)) :
    ∀ r i, r < cs.length → i < sp.length →
      (roundRobin cs r sp).getD i ⟨0, []⟩ =
        ⟨(sp.getD i (0, 0)).1, [cs.getD ((r + i) % cs.length) []]⟩ := by
  induction sp with
  | nil =>
    intro r i _ hi
    simp at hi
  | cons s t ih =>
    intro r i hr hi
    cases i with
    | zero =>
      show (⟨s.1, [cs.getD r []]⟩ : AssignmentSlice) = ⟨s.1, [cs.getD ((r + 0) % cs.length) []]⟩
      rw [Nat.add_zero, Nat.mod_eq_of_lt hr]
    | succ i =>
      show (roundRobin cs ((r + 1) % cs.length) t).getD i ⟨0, []⟩ = _
      rw [ih ((r + 1) % cs.length) i (Nat.mod_lt _ (by omega)) (by simpa using hi)]
      have hmod : ((r + 1) % cs.length + i) % cs.length = (r + (i + 1)) % cs.length := by
        rw [Nat.mod_add_mod]
        congr 1
        omega
      rw [hmod]
      rfl

/-! Coverage of the key space by a strictly increasing start-key list. -/

theorem coversKey_existsUnique (st : List Nat) (hne : st ≠ [])
    (h0 : st.getD 0 U64 = 0) (hpw : List.Pairwise (· < ·) st) :
    ∀ key, key < U64 → ∃! i, coversKey st i key := by
  intro key hkey
  have hlen : 0 < st.length := List.length_pos.mpr hne
  have hmono : ∀ i j, i ≤ j → j < st.length → st.getD i U64 ≤ st.getD j U64 := by
    intro i j hij hj
    rcases eq_or_lt_of_le hij with h | h
    · rw [h]
    · have hlt := List.pairwise_iff_get.mp hpw ⟨i, by omega⟩ ⟨j, hj⟩ h
      rw [List.getD_eq_get st U64 (by omega : i < st.length),
        List.getD_eq_get st U64 hj]
      exact le_of_lt hlt
  have hP0 : st.getD 0 U64 ≤ key := by omega
  set P : Nat → Prop := fun i => st.getD i U64 ≤ key with hPdef
  have hPd : DecidablePred P := fun i => Nat.decLe _ _
  have hi0le : Nat.findGreatest P (st.length - 1) ≤ st.length - 1 :=
    Nat.findGreatest_le _
  have hi0P : st.getD (Nat.findGreatest P (st.length - 1)) U64 ≤ key :=
    Nat.findGreatest_spec (P := P) (m := 0) (by omega) hP0
  refine ⟨Nat.findGreatest P (st.length - 1), ⟨by omega, hi0P, ?_⟩, ?_⟩
  · by_cases hnext : Nat.findGreatest P (st.length - 1) + 1 < st.length
    · by_contra hc
      push_neg at hc
      exact Nat.findGreatest_is_greatest (P := P) (n := st.length - 1) (by omega) (by omega) hc
    · rw [List.getD_eq_default st U64 (by omega)]
      exact hkey
  · intro j hj
    obtain ⟨hjlen, hjle, hjlt⟩ := hj
    by_contra hne2
    rcases lt_or_gt_of_ne hne2 with h | h
    · have h1 : st.getD (j + 1) U64 ≤ st.getD (Nat.findGreatest P (st.length - 1)) U64 :=
        hmono (j + 1) _ (by omega) (by omega)
      omega
    · exact Nat.findGreatest_is_greatest (P := P) (n := st.length - 1) h (by omega) hjle

/-! Unfolding lemmas for routingAlgo. -/

theorem routingAlgo_fields (curr : Assignment) (cand : List GoString) :
    (routingAlgo curr cand).version = (curr.version + 1) % U64 ∧
    (routingAlgo curr cand).component = curr.component ∧
    (routingAlgo curr cand).app = curr.app ∧
    (routingAlgo curr cand).deploymentId = curr.deploymentId := by
  simp only [routingAlgo]
  split
  · exact ⟨rfl, rfl, rfl, rfl⟩
  · split
    · exact ⟨rfl, rfl, rfl, rfl⟩
    · exact ⟨rfl, rfl, rfl, rfl⟩

theorem sortStrings_length (l : List GoString) : (sortStrings l).length = l.length :=
  (List.perm_insertionSort (· ≤ ·) l).length_eq

theorem routingAlgo_slices_nil (curr : Assignment) (cand : List GoString)
    (h : cand.length = 0) : (routingAlgo curr cand).slices = [] := by
  have hcs : (sortStrings cand).length = 0 := by rw [sortStrings_length, h]
  simp only [routingAlgo, hcs, if_pos]

theorem routingAlgo_slices_one (curr : Assignment) (cand : List GoString)
    (h : cand.length = 1) :
    (routingAlgo curr cand).slices = [⟨0, sortStrings cand⟩] := by
  have hcs : (sortStrings cand).length = 1 := by rw [sortStrings_length, h]
  simp only [routingAlgo, hcs]
  norm_num

theorem routingAlgo_slices_big (curr : Assignment) (cand : List GoString)
    (h2 : 2 ≤ cand.length) (h62 : cand.length ≤ 2 ^ 62) :
    ∃ k, 1 ≤ k ∧ k ≤ 62 ∧ nextPowerOfTwo cand.length = 2 ^ k ∧ cand.length ≤ 2 ^ k ∧
      (∀ j, cand.length ≤ 2 ^ j → 2 ^ k ≤ 2 ^ j) ∧
      (routingAlgo curr cand).slices = roundRobin (sortStrings cand) 0 (levels k) := by
  obtain ⟨k, hk1, hk62, hnp, hle, hmin⟩ := nextPowerOfTwo_spec cand.length h2 h62
  have hcs : (sortStrings cand).length = cand.length := sortStrings_length cand
  refine ⟨k, hk1, hk62, hnp, hle, hmin, ?_⟩
  have hcs0 : ¬ (sortStrings cand).length = 0 := by omega
  have hcs1 : ¬ (sortStrings cand).length = 1 := by omega
  simp only [routingAlgo, hcs0, hcs1, if_neg, if_false, hcs, hnp]
  have hlev := splitLoopGo_levels k hk1
  rw [hlev]
  have hinv := levels_inv k (by omega)
  have hlt := LensOK_lt (64 - k) (by omega) (levels k) hinv.2
  rw [sortSplits_of_sorted (levels k) (ChainB_pairwise_fst (levels k) 0 maxSliceKey hinv.1 hlt)]
  rw [if_neg (by omega : ¬ cand.length = 0), if_neg (by omega : ¬ cand.length = 1)]

/-! Counting slices per replica in the round-robin distribution. -/

theorem count_range_mod (n r : Nat) (hn : 0 < n) (hr : r < n) : ∀ S,
    (List.range S).countP (fun i => decide (i % n = r)) =
      S / n + (if r < S % n then 1 else 0) := by
  intro S
  induction S with
  | zero => simp
  | succ S ih =>
    rw [List.range_succ, List.countP_append, ih]
    have hm : S % n < n := Nat.mod_lt _ hn
    have hdm := Nat.div_add_mod S n
    have hexp : n * (S / n + 1) = n * (S / n) + n := by ring
    by_cases hc : S % n + 1 = n
    · have hS1 : S + 1 = n * (S / n + 1) := by omega
      have hdiv : (S + 1) / n = S / n + 1 := by
        rw [hS1, Nat.mul_div_cancel_left _ hn]
      have hmod : (S + 1) % n = 0 := by
        rw [hS1, Nat.mul_mod_right]
      rw [hdiv, hmod]
      simp only [List.countP_cons, List.countP_nil, decide_eq_true_eq]
      split_ifs <;> omega
    · have hlt : S % n + 1 < n := by omega
      have hS1 : S + 1 = n * (S / n) + (S % n + 1) := by omega
      have hdiv : (S + 1) / n = S / n := by
        rw [hS1, Nat.mul_add_div hn, Nat.div_eq_of_lt hlt, Nat.add_zero]
      have hmod : (S + 1) % n = S % n + 1 := by
        rw [hS1, Nat.mul_add_mod, Nat.mod_eq_of_lt hlt]
      rw [hdiv, hmod]
      simp only [List.countP_cons, List.countP_nil, decide_eq_true_eq]
      split_ifs <;> omega

theorem roundRobin_countP (cs : List GoString) (c : GoString) (rIdx : Nat)
    (hn : 0 < cs.length)
    (huniq : ∀ j, j < cs.length → (cs.getD j [] = c ↔ j = rIdx)) :
    ∀ (sp : List (Nat × Nat)) (r : Nat), r < cs.length →
      (roundRobin cs r sp).countP (fun s => decide (c ∈ s.replicas)) =
        (List.range sp.length).countP (fun i => decide ((r + i) % cs.length = rIdx)) := by
  intro sp
  induction sp with
  | nil =>
    intro r _
    rfl
  | cons s t ih =>
    intro r hr
    show List.countP _ (⟨s.1, [cs.getD r []]⟩ :: roundRobin cs ((r + 1) % cs.length) t) = _
    rw [List.countP_cons, ih ((r + 1) % cs.length) (Nat.mod_lt _ hn)]
    have hfun : ∀ i : Nat, ((r + 1) % cs.length + i) % cs.length = (r + (i + 1)) % cs.length := by
      intro i
      rw [Nat.mod_add_mod]
      congr 1
      omega
    rw [List.length_cons, List.range_succ_eq_map, List.countP_cons, List.countP_map]
    have hhead : (decide (c ∈ (⟨s.1, [cs.getD r []]⟩ : AssignmentSlice).replicas)) =
        decide ((r + 0) % cs.length = rIdx) := by
      rw [decide_eq_decide, Nat.add_zero, Nat.mod_eq_of_lt hr]
      have hu := huniq r hr
      have hmem : (c ∈ (⟨s.1, [cs.getD r []]⟩ : AssignmentSlice).replicas) ↔ c = cs.getD r [] :=
        List.mem_singleton
      rw [hmem]
      constructor
      · intro h
        exact hu.mp h.symm
      · intro h
        exact (hu.mpr h).symm
    rw [hhead]
    have htail : List.countP (fun i => decide (((r + 1) % cs.length + i) % cs.length = rIdx))
          (List.range t.length) =
        List.countP ((fun i => decide ((r + i) % cs.length = rIdx)) ∘ Nat.succ)
          (List.range t.length) := by
      apply List.countP_congr
      intro i _
      show decide (((r + 1) % cs.length + i) % cs.length = rIdx) = true ↔
          decide ((r + Nat.succ i) % cs.length = rIdx) = true
      rw [hfun i]
    rw [htail]

theorem roundRobin_count_floor_ceil (cs : List GoString) (c : GoString) (hmem : c ∈ cs)
    (hnd : cs.Nodup) (sp : List (Nat × Nat)) :
    (roundRobin cs 0 sp).countP (fun s => decide (c ∈ s.replicas)) = sp.length / cs.length ∨
    (roundRobin cs 0 sp).countP (fun s => decide (c ∈ s.replicas)) =
      (sp.length + cs.length - 1) / cs.length := by
  have hn : 0 < cs.length := List.length_pos.mpr (List.ne_nil_of_mem hmem)
  obtain ⟨⟨rIdx, hrIdx⟩, hget⟩ := List.mem_iff_get.mp hmem
  have huniq : ∀ j, j < cs.length → (cs.getD j [] = c ↔ j = rIdx) := by
    intro j hj
    constructor
    · intro hj2
      have hinj := List.nodup_iff_injective_get.mp hnd
      have hgg : cs.get ⟨j, hj⟩ = cs.get ⟨rIdx, hrIdx⟩ := by
        rw [hget, ← List.getD_eq_get cs [] hj]
        exact hj2
      have := hinj hgg
      exact congrArg Fin.val this
    · intro hj2
      subst hj2
      rw [List.getD_eq_get cs [] hj]
      exact hget
  have hcount := roundRobin_countP cs c rIdx hn huniq sp 0 hn
  rw [hcount]
  simp only [Nat.zero_add]
  rw [count_range_mod cs.length rIdx hn hrIdx sp.length]
  have hmlt : sp.length % cs.length < cs.length := Nat.mod_lt _ hn
  have hdm := Nat.div_add_mod sp.length cs.length
  have hexp : cs.length * (sp.length / cs.length + 1) =
      cs.length * (sp.length / cs.length) + cs.length := by ring
  by_cases h : rIdx < sp.length % cs.length
  · right
    have hsplit : sp.length + cs.length - 1 =
        cs.length * (sp.length / cs.length + 1) + (sp.length % cs.length - 1) := by omega
    have hceil : (sp.length + cs.length - 1) / cs.length = sp.length / cs.length + 1 := by
      rw [hsplit, Nat.mul_add_div hn,
        Nat.div_eq_of_lt (show sp.length % cs.length - 1 < cs.length by omega)]
    rw [if_pos h, hceil]
  · left
    rw [if_neg h]
    omega

/-! Helper lemmas about the per-group state machine. -/

theorem startColocationGroup_cells (newEnvOk : Nat → Bool) (g : GroupState) :
    ((startColocationGroup newEnvOk g).1).components = g.components ∧
    ((startColocationGroup newEnvOk g).1).assignments = g.assignments ∧
    ((startColocationGroup newEnvOk g).1).replicas = g.replicas ∧
    ((startColocationGroup newEnvOk g).1).pids = g.pids := by
  rw [startColocationGroup]
  split
  · exact ⟨rfl, rfl, rfl, rfl⟩
  · exact ⟨rfl, rfl, rfl, rfl⟩

theorem startComponent_mem (newEnvOk : Nat → Bool) (app dep : GoString) (g : GroupState)
    (comp : GoString) (isRouted : Bool) (h : comp ∈ g.components) :
    startComponent newEnvOk app dep g comp isRouted = (g, true) := by
  rw [startComponent, if_pos h]

theorem startComponent_not_mem (newEnvOk : Nat → Bool) (app dep : GoString) (g : GroupState)
    (comp : GoString) (isRouted : Bool) (h : comp ∉ g.components) :
    ((startComponent newEnvOk app dep g comp isRouted).1).components = g.components ++ [comp] ∧
    ((startComponent newEnvOk app dep g comp isRouted).1).assignments =
      (if isRouted then
        g.assignments ++ [routingAlgo ⟨app, dep, comp, 0, []⟩ g.replicas]
      else g.assignments) ∧
    ((startComponent newEnvOk app dep g comp isRouted).1).replicas =
      (if isRouted then sortStrings g.replicas else g.replicas) := by
  cases isRouted with
  | false =>
    have hc := startColocationGroup_cells newEnvOk { g with components := g.components ++ [comp] }
    simp only [startComponent, if_neg h, Bool.false_eq_true, if_false]
    exact ⟨hc.1, hc.2.1, hc.2.2.1⟩
  | true =>
    have hc := startColocationGroup_cells newEnvOk
      { g with components := g.components ++ [comp],
               replicas := sortStrings g.replicas,
               assignments := g.assignments ++ [routingAlgo ⟨app, dep, comp, 0, []⟩ g.replicas] }
    simp only [startComponent, if_neg h, if_true]
    exact ⟨hc.1, hc.2.1, hc.2.2.1⟩

theorem registerReplica_dup (g : GroupState) (addr : GoString) (pid : Int)
    (h : addr ∈ g.replicas) : registerReplica g addr pid = g := by
  rw [registerReplica, if_pos h]

theorem registerReplica_components (g : GroupState) (addr : GoString) (pid : Int) :
    (registerReplica g addr pid).components = g.components := by
  rw [registerReplica]
  split
  · rfl
  · rfl

theorem registerReplica_assignments_components (g : GroupState) (addr : GoString) (pid : Int) :
    (registerReplica g addr pid).assignments.map Assignment.component =
      g.assignments.map Assignment.component := by
  rw [registerReplica]
  split
  · rfl
  · show (g.assignments.map (fun a => routingAlgo a (g.replicas ++ [addr]))).map
        Assignment.component = g.assignments.map Assignment.component
    rw [List.map_map]
    apply List.map_congr_left
    intro a _
    show (routingAlgo a (g.replicas ++ [addr])).component = a.component
    exact (routingAlgo_fields a (g.replicas ++ [addr])).2.1

theorem registerReplica_assignments_length (g : GroupState) (addr : GoString) (pid : Int) :
    (registerReplica g addr pid).assignments.length = g.assignments.length := by
  have h := congrArg List.length (registerReplica_assignments_components g addr pid)
  simpa using h

theorem assignCount_eq_count_map (g : GroupState) (c : GoString) :
    assignCount g c =
      (g.assignments.map Assignment.component).countP (fun x => decide (x = c)) := by
  rw [assignCount, List.countP_map]
  rfl

theorem registerReplica_assignCount (g : GroupState) (addr : GoString) (pid : Int)
    (c : GoString) : assignCount (registerReplica g addr pid) c = assignCount g c := by
  rw [assignCount_eq_count_map, assignCount_eq_count_map,
    registerReplica_assignments_components]

theorem runOps_assignCount (app dep c : GoString) : ∀ (ops : List GroupOp) (g : GroupState),
    (c ∉ g.components → assignCount g c = 0) →
    assignCount (runOps app dep ops g) c =
      (if c ∈ g.components then assignCount g c
       else if firstStartRouted c ops then 1 else 0) := by
  intro ops
  induction ops with
  | nil =>
    intro g hg
    by_cases h : c ∈ g.components
    · simp [runOps, h]
    · simp [runOps, h, firstStartRouted, hg h]
  | cons op t ih =>
    intro g hg
    have hrun : runOps app dep (op :: t) g = runOps app dep t (stepOp app dep g op) := rfl
    rw [hrun]
    cases op with
    | register addr pid =>
      have hreg : stepOp app dep g (.register addr pid) = registerReplica g addr pid := rfl
      rw [hreg, ih (registerReplica g addr pid)
        (by rw [registerReplica_components, registerReplica_assignCount]; exact hg)]
      rw [registerReplica_components, registerReplica_assignCount]
      rfl
    | startC comp isRouted ok =>
      have hstep : stepOp app dep g (.startC comp isRouted ok) =
          (startComponent ok app dep g comp isRouted).1 := rfl
      rw [hstep]
      by_cases hmem : comp ∈ g.components
      · rw [startComponent_mem ok app dep g comp isRouted hmem]
        rw [ih g hg]
        by_cases hcc : comp = c
        · subst hcc
          simp [hmem]
        · have hfsr : firstStartRouted c (.startC comp isRouted ok :: t) =
              firstStartRouted c t := by
            simp [firstStartRouted, hcc]
          rw [hfsr]
      · obtain ⟨hcomps, hassign, _⟩ := startComponent_not_mem ok app dep g comp isRouted hmem
        have hcount : assignCount (startComponent ok app dep g comp isRouted).1 c =
            assignCount g c + (if isRouted ∧ comp = c then 1 else 0) := by
          rw [assignCount, hassign]
          cases isRouted with
          | false =>
            simp [assignCount]
          | true =>
            rw [if_pos rfl, List.countP_append]
            rw [assignCount]
            congr 1
            show List.countP _ [routingAlgo ⟨app, dep, comp, 0, []⟩ g.replicas] = _
            rw [List.countP_cons, List.countP_nil]
            have hcomp : (routingAlgo ⟨app, dep, comp, 0, []⟩ g.replicas).component = comp :=
              (routingAlgo_fields ⟨app, dep, comp, 0, []⟩ g.replicas).2.1
            by_cases hcc : comp = c
            · subst hcc
              simp [hcomp]
            · simp [hcomp, hcc]
        have hg2 : c ∉ ((startComponent ok app dep g comp isRouted).1).components →
            assignCount (startComponent ok app dep g comp isRouted).1 c = 0 := by
          intro hnm
          rw [hcomps] at hnm
          simp only [List.mem_append, List.mem_singleton, not_or] at hnm
          rw [hcount, hg hnm.1]
          have hne : ¬ (isRouted = true ∧ comp = c) := by
            intro hx
            exact hnm.2 hx.2.symm
          rw [if_neg hne]
        rw [ih _ hg2]
        by_cases hcc : comp = c
        · have hmemc : c ∉ g.components := by
            rw [← hcc]
            exact hmem
          have hin : c ∈ ((startComponent ok app dep g comp isRouted).1).components := by
            rw [hcomps, hcc]
            simp
          rw [if_pos hin, hcount, hg hmemc, if_neg hmemc]
          have hfsr : firstStartRouted c (.startC comp isRouted ok :: t) = isRouted := by
            simp [firstStartRouted, hcc]
          rw [hfsr]
          cases isRouted with
          | false => simp
          | true => simp [hcc]
        · have hmemiff : (c ∈ ((startComponent ok app dep g comp isRouted).1).components) ↔
              c ∈ g.components := by
            rw [hcomps]
            simp only [List.mem_append, List.mem_singleton]
            constructor
            · rintro (h | h)
              · exact h
              · exact absurd h.symm hcc
            · intro h
              exact Or.inl h
          have hcnt : assignCount ((startComponent ok app dep g comp isRouted).1) c =
              assignCount g c := by
            rw [hcount]
            have hne : ¬ (isRouted = true ∧ comp = c) := fun hx => hcc hx.2
            rw [if_neg hne]
            omega
          have hfsr : firstStartRouted c (.startC comp isRouted ok :: t) =
              firstStartRouted c t := by
            simp [firstStartRouted, hcc]
          rw [hfsr]
          by_cases hcg : c ∈ g.components
          · rw [if_pos (hmemiff.mpr hcg), if_pos hcg, hcnt]
          · rw [if_neg (fun hx => hcg (hmemiff.mp hx)), if_neg hcg]

/-! Claim theorems. -/

/-- C1: for every non-empty candidates list (within the representable input
range of the Go implementation: at most 2^62 candidates, beyond which the
int conversion inside nextPowerOfTwo overflows and the call cannot return
normally), the slices returned by routingAlgo cover the 64-bit key space
[0, 2^64) contiguously and non-overlappingly: the start keys are strictly
increasing, the first slice starts at key 0, and each key below 2^64 lies in
exactly one slice, where slice i covers [start i, start (i+1)) and the last
slice covers [start, 2^64). -/
theorem routingAlgo_covers (curr : Assignment) (cand : List GoString)
    (hne : cand ≠ []) (hlen : cand.length ≤ 2 ^ 62) :
    (routingStarts curr cand).getD 0 U64 = 0 ∧
    List.Pairwise (· < ·) (routingStarts curr cand) ∧
    ∀ key, key < U64 → ∃! i, coversKey (routingStarts curr cand) i key := by
  have h1 : 1 ≤ cand.length := List.length_pos.mpr hne
  by_cases hone : cand.length = 1
  · have hs : routingStarts curr cand = [0] := by
      rw [routingStarts, routingAlgo_slices_one curr cand hone]
      rfl
    refine ⟨by rw [hs]; rfl, by rw [hs]; exact List.pairwise_singleton _ _, ?_⟩
    intro key hk
    rw [hs]
    exact coversKey_existsUnique [0] (by simp) rfl (List.pairwise_singleton _ _) key hk
  · have h2 : 2 ≤ cand.length := by omega
    obtain ⟨k, hk1, hk62, hnp, hle, hmin, hslices⟩ := routingAlgo_slices_big curr cand h2 hlen
    have hstarts : routingStarts curr cand = (levels k).map Prod.fst := by
      rw [routingStarts, hslices, roundRobin_starts]
    have hinv := levels_inv k (by omega)
    have hlt := LensOK_lt (64 - k) (by omega) (levels k) hinv.2
    have hpw0 := ChainB_pairwise_fst (levels k) 0 maxSliceKey hinv.1 hlt
    have hpw : List.Pairwise (· < ·) ((levels k).map Prod.fst) :=
      List.pairwise_map.mpr hpw0
    have hlev_ne : levels k ≠ [] := by
      intro h
      have hll := levels_length k
      rw [h] at hll
      have : (0 : Nat) < 2 ^ k := by positivity
      simp at hll
      omega
    have h0 : ((levels k).map Prod.fst).getD 0 U64 = 0 := by
      cases hl : levels k with
      | nil => exact absurd hl hlev_ne
      | cons iv t =>
        have hch := hinv.1
        rw [hl] at hch
        obtain ⟨hiv, _⟩ := hch
        simp [hiv]
    refine ⟨by rw [hstarts]; exact h0, by rw [hstarts]; exact hpw, ?_⟩
    intro key hk
    rw [hstarts]
    apply coversKey_existsUnique _ _ h0 hpw key hk
    intro h
    exact hlev_ne (List.map_eq_nil.mp h)

/-- C1 witness at the concrete singleton candidate list ["a"]. -/
theorem routingAlgo_covers_witness :
    (([[97]] : List GoString) ≠ [] ∧ ([[97]] : List GoString).length ≤ 2 ^ 62) ∧
    ((routingStarts ⟨[], [], [], 0, []⟩ [[97]]).getD 0 U64 = 0 ∧
      List.Pairwise (· < ·) (routingStarts ⟨[], [], [], 0, []⟩ [[97]]) ∧
      ∀ key, key < U64 → ∃! i, coversKey (routingStarts ⟨[], [], [], 0, []⟩ [[97]]) i key) :=
  ⟨⟨by decide, by decide⟩,
    routingAlgo_covers ⟨[], [], [], 0, []⟩ [[97]] (by decide) (by decide)⟩

/-- C2 counterexample: on the duplicate candidate list ["a", "a"] (two equal
strings), routingAlgo returns 2 slices and the candidate "a" appears as the
replica of both of them, not of ⌊2/2⌋ = ⌈2/2⌉ = 1 slice, so the per-candidate
load bound fails as stated for arbitrary non-empty lists. -/
theorem routingAlgo_load_counterexample :
    ([[97], [97]] : List GoString) ≠ [] ∧
    (routingAlgo ⟨[], [], [], 0, []⟩ [[97], [97]]).slices.length = 2 ∧
    (routingAlgo ⟨[], [], [], 0, []⟩ [[97], [97]]).slices.countP
        (fun s => decide (([97] : GoString) ∈ s.replicas)) = 2 ∧
    ¬ ((2 : Nat) = 2 / 2 ∨ (2 : Nat) = (2 + 2 - 1) / 2) := by
  refine ⟨by decide, ?_, ?_, by decide⟩
  · decide
  · decide

/-- C2 (amended): for every non-empty, duplicate-free candidates list with at
most 2^62 entries, routingAlgo returns exactly max(1, nextPowerOfTwo n) slices
where n is the number of candidates, nextPowerOfTwo n is a power of two, is at
least n and is minimal with that property, and each candidate appears as the
replica of either ⌊S/n⌋ or ⌈S/n⌉ of the S slices. -/
theorem routingAlgo_load (curr : Assignment) (cand : List GoString)
    (hne : cand ≠ []) (hnd : cand.Nodup) (hlen : cand.length ≤ 2 ^ 62) :
    (routingAlgo curr cand).slices.length = max 1 (nextPowerOfTwo cand.length) ∧
    ((∃ k, nextPowerOfTwo cand.length = 2 ^ k) ∧
      cand.length ≤ nextPowerOfTwo cand.length ∧
      ∀ j, cand.length ≤ 2 ^ j → nextPowerOfTwo cand.length ≤ 2 ^ j) ∧
    ∀ c ∈ cand,
      ((routingAlgo curr cand).slices.countP (fun s => decide (c ∈ s.replicas)) =
          (routingAlgo curr cand).slices.length / cand.length ∨
        (routingAlgo curr cand).slices.countP (fun s => decide (c ∈ s.replicas)) =
          ((routingAlgo curr cand).slices.length + cand.length - 1) / cand.length) := by
  have h1 : 1 ≤ cand.length := List.length_pos.mpr hne
  by_cases hone : cand.length = 1
  · obtain ⟨x, hx⟩ : ∃ x, cand = [x] := List.length_eq_one.mp hone
    subst hx
    have hl1 : ([x] : List GoString).length = 1 := rfl
    have hnp1 : nextPowerOfTwo ([x] : List GoString).length = 1 := by
      rw [hl1]
      decide
    refine ⟨?_, ⟨⟨0, by rw [hnp1]; rfl⟩, by rw [hnp1, hl1], ?_⟩, ?_⟩
    · rw [routingAlgo_slices_one curr [x] rfl, hnp1]
      rfl
    · intro j _
      rw [hnp1]
      exact Nat.one_le_two_pow
    · intro c hc
      left
      have hcx : c = x := by simpa using hc
      subst hcx
      rw [routingAlgo_slices_one curr [c] rfl]
      simp [sortStrings, List.insertionSort, List.orderedInsert]
  · have h2 : 2 ≤ cand.length := by omega
    obtain ⟨k, hk1, hk62, hnp, hle, hmin, hslices⟩ := routingAlgo_slices_big curr cand h2 hlen
    have hcsl : (sortStrings cand).length = cand.length := sortStrings_length cand
    refine ⟨?_, ⟨⟨k, hnp⟩, by rw [hnp]; exact hle, ?_⟩, ?_⟩
    · rw [hslices, roundRobin_length, levels_length, hnp]
      have : (1 : Nat) ≤ 2 ^ k := Nat.one_le_two_pow
      omega
    · intro j hj
      rw [hnp]
      exact hmin j hj
    · intro c hc
      have hcmem : c ∈ sortStrings cand :=
        (List.perm_insertionSort (· ≤ ·) cand).mem_iff.mpr hc
      have hcnd : (sortStrings cand).Nodup :=
        (List.perm_insertionSort (· ≤ ·) cand).nodup_iff.mpr hnd
      have hcount := roundRobin_count_floor_ceil (sortStrings cand) c hcmem hcnd (levels k)
      rw [levels_length, hcsl] at hcount
      rw [hslices, roundRobin_length, levels_length]
      exact hcount

/-- C2 (amended) witness at the concrete candidate list ["a", "b"]. -/
theorem routingAlgo_load_witness :
    (([[97], [98]] : List GoString) ≠ [] ∧ ([[97], [98]] : List GoString).Nodup ∧
      ([[97], [98]] : List GoString).length ≤ 2 ^ 62) ∧
    (routingAlgo ⟨[], [], [], 0, []⟩ [[97], [98]]).slices.length =
      max 1 (nextPowerOfTwo ([[97], [98]] : List GoString).length) :=
  ⟨⟨by decide, by decide, by decide⟩,
    (routingAlgo_load ⟨[], [], [], 0, []⟩ [[97], [98]] (by decide) (by decide) (by decide)).1⟩

/-- C4: for exactly two candidates the slice boundary is exact: slice 0 starts
at key 0 and holds the byte-lexicographically smaller candidate, slice 1
starts at key 0x8000000000000000 = 2^63 and holds the larger one (float64
rounding of 2^64 - 1 yields exactly 2^64, whose half is 2^63). -/
theorem routingAlgo_two (curr : Assignment) (x y : GoString) :
    (routingAlgo curr [x, y]).slices =
      [⟨0, [if x ≤ y then x else y]⟩, ⟨2 ^ 63, [if x ≤ y then y else x]⟩] := by
  have hsplits : sortSplits (splitLoopGo (nextPowerOfTwo 2) (nextPowerOfTwo 2)
      [(0, maxSliceKey)]) = [(0, 2 ^ 63), (2 ^ 63, maxSliceKey)] := by decide
  by_cases h : x ≤ y
  · have hsort : sortStrings [x, y] = [x, y] := by
      simp [sortStrings, List.insertionSort, List.orderedInsert, h]
    simp only [routingAlgo, hsort, List.length_cons, List.length_nil]
    norm_num
    rw [hsplits]
    simp [roundRobin, h]
  · have hsort : sortStrings [x, y] = [y, x] := by
      simp [sortStrings, List.insertionSort, List.orderedInsert, h]
    simp only [routingAlgo, hsort, List.length_cons, List.length_nil]
    norm_num
    rw [hsplits]
    simp [roundRobin, h]

/-- C7: routingAlgo is deterministic and permutation-invariant in the
candidates (it sorts them first), the result is a pure function of its
arguments (so two calls from the same previous assignment and candidates are
identical), the version is the previous version plus one (the uint64 increment
does not wrap below 2^64 - 1), and the component field is unchanged. -/
theorem routingAlgo_perm_deterministic (a : Assignment) (xs ys : List GoString)
    (hperm : xs.Perm ys) (hv : a.version + 1 < U64) :
    routingAlgo a xs = routingAlgo a ys ∧
    (routingAlgo a xs).version = a.version + 1 ∧
    (routingAlgo a xs).component = a.component := by
  have hsort : sortStrings xs = sortStrings ys :=
    List.eq_of_perm_of_sorted
      (((List.perm_insertionSort _ xs).trans hperm).trans
        (List.perm_insertionSort _ ys).symm)
      (List.sorted_insertionSort (· ≤ ·) xs)
      (List.sorted_insertionSort (· ≤ ·) ys)
  refine ⟨?_, ?_, (routingAlgo_fields a xs).2.1⟩
  · unfold routingAlgo
    rw [hsort]
  · rw [(routingAlgo_fields a xs).1, Nat.mod_eq_of_lt hv]

/-- C7 witness at the concrete permutation ["b", "a"] to ["a", "b"]. -/
theorem routingAlgo_perm_deterministic_witness :
    (([[98], [97]] : List GoString).Perm [[97], [98]] ∧
      (⟨[], [], [], 0, []⟩ : Assignment).version + 1 < U64) ∧
    routingAlgo ⟨[], [], [], 0, []⟩ [[98], [97]] =
      routingAlgo ⟨[], [], [], 0, []⟩ [[97], [98]] :=
  ⟨⟨by decide, by decide⟩,
    (routingAlgo_perm_deterministic ⟨[], [], [], 0, []⟩ [[98], [97]] [[97], [98]]
      (by decide) (by decide)).1⟩

/-- C3: the code violates the never-partial-spawn invariant.  On a fresh group,
when the first envelope construction succeeds and the second fails,
startColocationGroup returns the error having appended exactly one envelope
(length 1, neither 0 nor DefaultReplication = 2), and a later call with both
constructions succeeding appends two more envelopes (length 3): the claimed
invariant and the idempotence after partial failure both fail on the code. -/
theorem startColocationGroup_incomplete_spawn :
    ((startColocationGroup (fun r => decide (r = 0)) initGroup).1.envelopes.length = 1 ∧
      (startColocationGroup (fun r => decide (r = 0)) initGroup).2 = false) ∧
    (startColocationGroup (fun _ => true)
        (startColocationGroup (fun r => decide (r = 0)) initGroup).1).1.envelopes.length = 3 := by
  decide

/-- C5: over any callback trace from a fresh group, a component has exactly one
assignment with its component field iff the first StartComponent call for it
was routed (and no assignment otherwise); a repeated StartComponent for an
already-recorded component is a complete no-op returning nil; and
RegisterReplica replaces assignments in place, preserving their number and
their component fields. -/
theorem startComponent_assignment_unique (app dep : GoString) :
    (∀ (ops : List GroupOp) (c : GoString),
      assignCount (runOps app dep ops initGroup) c =
        if firstStartRouted c ops then 1 else 0) ∧
    (∀ (ok : Nat → Bool) (g : GroupState) (comp : GoString) (isRouted : Bool),
      comp ∈ g.components → startComponent ok app dep g comp isRouted = (g, true)) ∧
    (∀ (g : GroupState) (addr : GoString) (pid : Int),
      (registerReplica g addr pid).assignments.length = g.assignments.length ∧
      (registerReplica g addr pid).assignments.map Assignment.component =
        g.assignments.map Assignment.component) := by
  refine ⟨?_, fun ok g comp r h => startComponent_mem ok app dep g comp r h,
    fun g addr pid => ⟨registerReplica_assignments_length g addr pid,
      registerReplica_assignments_components g addr pid⟩⟩
  intro ops c
  have h := runOps_assignCount app dep c ops initGroup (fun _ => rfl)
  rw [h]
  have hni : c ∉ initGroup.components := by simp [initGroup]
  rw [if_neg hni]

/-- C5 witness: a routed start of component "c" on the empty trace yields
exactly one assignment, and a repeated StartComponent is a no-op. -/
theorem startComponent_assignment_unique_witness :
    assignCount (runOps [] [] [.startC [99] true (fun _ => true)] initGroup) [99] =
      (if firstStartRouted [99] [.startC [99] true (fun _ => true)] then 1 else 0) ∧
    (([99] : GoString) ∈ ({ initGroup with components := [[99]] } : GroupState).components ∧
      startComponent (fun _ => true) [] [] { initGroup with components := [[99]] } [99] true =
        ({ initGroup with components := [[99]] }, true)) :=
  ⟨(startComponent_assignment_unique [] []).1 [.startC [99] true (fun _ => true)] [99],
    ⟨by decide, (startComponent_assignment_unique [] []).2.1 (fun _ => true)
      { initGroup with components := [[99]] } [99] true (by decide)⟩⟩

/-- C6: ExportListener for a listener with no existing proxy: an
address-in-use bind failure is reported through the nil-error reply channel
(the reply's error field carries the OS message, non-empty for a real OS
error, and its proxy address is empty) with no proxy record created; any other
bind failure is returned as a supervisor fault with no record created; a
successful bind registers a proxy record for the chosen address and replies
with that address and an empty error field. -/
theorem exportListener_bind_spec (proxies : List (GoString × ProxyInfo))
    (name backendAddr : GoString) (hnone : proxies.lookup name = none) :
    (∀ msg, exportListener proxies name backendAddr (.addrInUse msg) =
      (proxies, .reply [] msg)) ∧
    (∀ msg, exportListener proxies name backendAddr (.failure msg) =
      (proxies, .fault msg)) ∧
    (∀ addr, exportListener proxies name backendAddr (.ok addr) =
      (proxies ++ [(name, ⟨name, [backendAddr], addr⟩)], .reply addr [])) := by
  refine ⟨fun msg => ?_, fun msg => ?_, fun addr => ?_⟩
  · rw [exportListener, hnone]
  · rw [exportListener, hnone]
  · rw [exportListener, hnone]

/-- C6 witness on an empty proxy table with a non-empty OS error message. -/
theorem exportListener_bind_spec_witness :
    (([] : List (GoString × ProxyInfo)).lookup ([76] : GoString) = none) ∧
    exportListener [] [76] [66] (.addrInUse [69]) = ([], .reply [] [69]) :=
  ⟨by decide, (exportListener_bind_spec [] [76] [66] (by decide)).1 [69]⟩

/-- C8 counterexample: the lock event trace of RegisterReplica acquires the
group mutex while still holding the routing versioned-cell lock, so the claim
that every code path (RegisterReplica in particular) acquires locks only in
the order supervisor mutex → group mutex → versioned-cell lock is false. -/
theorem registerReplica_lock_order_violation :
    respectsOrder registerReplicaLocks = false := by
  decide

/-- C8 (amended): every supervisor code path except RegisterReplica acquires
locks consistently with the documented order supervisor mutex → group mutex →
versioned-cell lock (no path even holds two of these locks at once);
RegisterReplica alone holds the routing cell lock while acquiring the group
mutex, reversing the group/cell order. -/
theorem lock_order_discipline :
    respectsOrder groupLookupLocks = true ∧
    respectsOrder startColocationGroupLocks = true ∧
    respectsOrder startComponentLocks = true ∧
    respectsOrder getComponentsToStartLocks = true ∧
    respectsOrder getRoutingInfoLocks = true ∧
    respectsOrder exportListenerLocks = true ∧
    respectsOrder readMetricsLocks = true ∧
    respectsOrder profileLocks = true ∧
    respectsOrder statusLocks = true ∧
    respectsOrder registerReplicaLocks = false := by
  decide

/-- C9: routingAlgo sorts the candidate slice it is handed in place and
RegisterReplica hands it the stored replica list, so after a RegisterReplica
that adds a new address to a group holding at least one assignment, the stored
replica list (as later returned by GetRoutingInfo) is the ascending
byte-lexicographic sort of the registered addresses, not registration order. -/
theorem registerReplica_sorts_replicas (g : GroupState) (addr : GoString) (pid : Int)
    (version : Nat) (hnew : addr ∉ g.replicas) (hassign : g.assignments ≠ []) :
    (getRoutingInfo (registerReplica g addr pid) version).replicas =
      sortStrings (g.replicas ++ [addr]) ∧
    List.Sorted (· ≤ ·) ((getRoutingInfo (registerReplica g addr pid) version).replicas) := by
  have hlen : ¬ g.assignments.length = 0 := by
    intro h
    exact hassign (List.length_eq_zero.mp h)
  have hrep : (getRoutingInfo (registerReplica g addr pid) version).replicas =
      sortStrings (g.replicas ++ [addr]) := by
    show (registerReplica g addr pid).replicas = _
    rw [registerReplica, if_neg hnew]
    simp only [if_neg hlen]
  refine ⟨hrep, ?_⟩
  rw [hrep]
  exact List.sorted_insertionSort (· ≤ ·) (g.replicas ++ [addr])

/-- C9 witness: registering "a" after "b" with one assignment present leaves
the stored replicas sorted as ["a", "b"]. -/
theorem registerReplica_sorts_replicas_witness :
    (([97] : GoString) ∉
        ({ initGroup with replicas := [[98]], assignments := [⟨[], [], [], 1, []⟩] } :
          GroupState).replicas ∧
      ({ initGroup with replicas := [[98]], assignments := [⟨[], [], [], 1, []⟩] } :
          GroupState).assignments ≠ []) ∧
    (getRoutingInfo (registerReplica
        { initGroup with replicas := [[98]], assignments := [⟨[], [], [], 1, []⟩] }
        [97] 7) 1).replicas = sortStrings ([[98]] ++ [[97]]) :=
  ⟨⟨by decide, by decide⟩,
    (registerReplica_sorts_replicas
      { initGroup with replicas := [[98]], assignments := [⟨[], [], [], 1, []⟩] }
      [97] 7 1 (by decide) (by decide)).1⟩

/-- C10: StartComponent records the component in the components cell before
attempting the spawn and never unrecords it: whatever the envelope
construction oracle does (including failures), the component is in the
resulting components set; and a repeated StartComponent for an
already-recorded component returns nil immediately with the state untouched,
so the spawn is never re-attempted. -/
theorem startComponent_marks_before_spawn (app dep : GoString) :
    (∀ (ok : Nat → Bool) (g : GroupState) (comp : GoString) (isRouted : Bool),
      comp ∈ ((startComponent ok app dep g comp isRouted).1).components) ∧
    (∀ (ok : Nat → Bool) (g : GroupState) (comp : GoString) (isRouted : Bool),
      comp ∈ g.components → startComponent ok app dep g comp isRouted = (g, true)) := by
  constructor
  · intro ok g comp r
    by_cases h : comp ∈ g.components
    · rw [startComponent_mem ok app dep g comp r h]
      exact h
    · rw [(startComponent_not_mem ok app dep g comp r h).1]
      simp
  · exact fun ok g comp r h => startComponent_mem ok app dep g comp r h

/-- C10 witness: with an always-failing construction oracle the component is
still recorded, and the repeated call is the identity with a nil return. -/
theorem startComponent_marks_before_spawn_witness :
    (([99] : GoString) ∈
      ((startComponent (fun _ => false) [] [] initGroup [99] false).1).components) ∧
    (([99] : GoString) ∈ ({ initGroup with components := [[99]] } : GroupState).components ∧
      startComponent (fun _ => false) [] [] { initGroup with components := [[99]] } [99] false =
        ({ initGroup with components := [[99]] }, true)) :=
  ⟨(startComponent_marks_before_spawn [] []).1 (fun _ => false) initGroup [99] false,
    ⟨by decide, (startComponent_marks_before_spawn [] []).2 (fun _ => false)
      { initGroup with components := [[99]] } [99] false (by decide)⟩⟩

end Weaver
